import Mathlib

/-!
Verification of the econerra market matching engine and firm agent.

The repository provides the market interface (`market.go`), its test
(`market_test.go`) and the firm agent (`agents/firm.go`).  The double-auction
engine itself (`NewDoubleAuction` with its `Post`/`Reset` bodies) is not among
the provided sources, so it is modelled here from the specification of the
matching algorithm (continuous double auction, price-time priority, trade
price = price of the resting order, per-period statistics, unfilled settlement at
reset).  The firm agent is embedded directly from `agents/firm.go`.
-/

namespace Econerra

/-- The goods enumeration (`goods.Good`, a closed enumeration; `Labour` is the
good used by the market test). -/
inductive Good where
  | Labour
  | Food
deriving DecidableEq

/-- A Side represents the side that an order is on (buy vs. sell). -/
inductive Side where
  | Buy
  | Sell
deriving DecidableEq

/-- A Price is how much it costs to buy a good (Go: `uint32`); prices are
modelled as `Nat` (signatures below use `Nat` directly so that arithmetic
automation sees through the synonym). -/
abbrev Price := Nat

/-- A Size is a quantity of a good (Go: `uint32`), likewise modelled as
`Nat`. -/
abbrev Size := Nat

/-- An Order is an order to trade something in the market for a given price. -/
structure Order where
  price : Nat
  size : Nat
  side : Side
  owner : Nat
deriving DecidableEq

/-- Modelled from the spec: a resting order in a book, tagged with its
insertion sequence number, which breaks price ties FIFO. -/
structure BookEntry where
  order : Order
  seq : Nat
deriving DecidableEq

/-- A callback delivered to an agent: `OnFill` or `OnUnfilled`. -/
inductive Event where
  | fill (agent : Nat) (good : Good) (side : Side) (price : Nat) (size : Nat)
  | unfilled (agent : Nat) (good : Good) (side : Side) (size : Nat)
deriving DecidableEq

/-- The agent a callback is delivered to. -/
def Event.agent : Event → Nat
  | .fill a _ _ _ _ => a
  | .unfilled a _ _ _ => a

/-- The side argument of a callback. -/
def Event.side : Event → Side
  | .fill _ _ s _ _ => s
  | .unfilled _ _ s _ => s

/-- The price argument of a fill callback (0 for `OnUnfilled`, which carries
no price). -/
def Event.price : Event → Nat
  | .fill _ _ _ p _ => p
  | .unfilled _ _ _ _ => 0

/-- The size argument of a callback. -/
def Event.size : Event → Nat
  | .fill _ _ _ _ q => q
  | .unfilled _ _ _ q => q

/-- Modelled from the spec: the statistics accumulator of one period; high and low
are unset until the first trade of the period. -/
structure Stats where
  high : Option Nat
  low : Option Nat
  volume : Nat
deriving DecidableEq

/-- The empty accumulator a fresh period starts with. -/
def Stats.empty : Stats := ⟨none, none, 0⟩

/-- Modelled from the spec: record one trade in the accumulator:
`high = max(high or tradePrice, tradePrice)`, `low` symmetric,
`volume += tradeSize`. -/
def Stats.record (st : Stats) (p : Nat) (q : Nat) : Stats :=
  ⟨some (match st.high with | none => p | some h => max h p),
   some (match st.low with | none => p | some l => min l p),
   st.volume + q⟩

/-- Modelled from the spec: insert into the Buy book, which orders by
descending price with FIFO tie-break: the new entry goes after every entry
whose price is greater than or equal to its own. -/
def insertBuy (e : BookEntry) : List BookEntry → List BookEntry
  | [] => [e]
  | x :: xs =>
    if e.order.price ≤ x.order.price then x :: insertBuy e xs else e :: x :: xs

/-- Modelled from the spec: insert into the Sell book, which orders by
ascending price with FIFO tie-break: the new entry goes after every entry
whose price is less than or equal to its own. -/
def insertSell (e : BookEntry) : List BookEntry → List BookEntry
  | [] => [e]
  | x :: xs =>
    if x.order.price ≤ e.order.price then x :: insertSell e xs else e :: x :: xs

/-- Modelled from the spec: crossability of an incoming order against the best
opposite price: a Buy crosses when its price is at least the resting price, a
Sell when its price is at most the resting price. -/
def crossable (side : Side) (orderPrice restingPrice : Nat) : Bool :=
  match side with
  | .Buy => restingPrice ≤ orderPrice
  | .Sell => orderPrice ≤ restingPrice

/-- The result of running the matching loop: the remainder of the incoming order,
the opposite book after matching, the fill callbacks in delivery order, and
the updated period statistics. -/
structure MatchResult where
  rem : Order
  book : List BookEntry
  events : List Event
  stats : Stats
deriving DecidableEq

/-- Modelled from the spec: the matching loop of `Post` in the missing
`NewDoubleAuction` implementation.  While the incoming order has size left and
crosses the best opposite entry: trade `min` of the two sizes at the resting
price, notify both owners (incoming first, each with its own side), reduce
both sides and record the trade in the active statistics; a fully filled
resting entry is removed and matching continues down the book. -/
def matchLoop (good : Good) (order : Order) : List BookEntry → Stats → MatchResult
  | [], st => ⟨order, [], [], st⟩
  | r :: rest, st =>
    if order.size = 0 then ⟨order, r :: rest, [], st⟩
    else if crossable order.side order.price r.order.price then
      let q := min order.size r.order.size
      let p := r.order.price
      let evs := [Event.fill order.owner good order.side p q,
                  Event.fill r.order.owner good r.order.side p q]
      let st1 := st.record p q
      if r.order.size ≤ order.size then
        let res := matchLoop good ⟨order.price, order.size - q, order.side, order.owner⟩ rest st1
        ⟨res.rem, res.book, evs ++ res.events, res.stats⟩
      else
        ⟨⟨order.price, 0, order.side, order.owner⟩,
         ⟨⟨r.order.price, r.order.size - q, r.order.side, r.order.owner⟩, r.seq⟩ :: rest,
         evs, st1⟩
    else ⟨order, r :: rest, [], st⟩

/-- Modelled from the spec: the state of one double-auction market: its good,
the two books, the active accumulator, the snapshot of the last finished period,
and the next insertion sequence number. -/
structure MarketState where
  good : Good
  buys : List BookEntry
  sells : List BookEntry
  active : Stats
  last : Stats
  nextSeq : Nat
deriving DecidableEq

/-- A fresh market for a good, as `NewDoubleAuction` creates it. -/
def emptyMarket (g : Good) : MarketState := ⟨g, [], [], Stats.empty, Stats.empty, 0⟩

/-- The outcome of one `Post` call: the new state, the callbacks delivered
during the call, and whether the order was rejected as invalid. -/
structure PostOutcome where
  state : MarketState
  events : List Event
  error : Bool
deriving DecidableEq

/-- Modelled from the spec: `Post`.  A zero-size order is rejected and
reported, touching nothing; otherwise the order matches against the opposite
book and any positive remainder is inserted into its own book with the next
sequence number. -/
def Post (s : MarketState) (o : Order) : PostOutcome :=
  if o.size = 0 then ⟨s, [], true⟩
  else
    match o.side with
    | .Buy =>
      let r := matchLoop s.good o s.sells s.active
      let buys1 := if r.rem.size = 0 then s.buys else insertBuy ⟨r.rem, s.nextSeq⟩ s.buys
      ⟨⟨s.good, buys1, r.book, r.stats, s.last, s.nextSeq + 1⟩, r.events, false⟩
    | .Sell =>
      let r := matchLoop s.good o s.buys s.active
      let sells1 := if r.rem.size = 0 then s.sells else insertSell ⟨r.rem, s.nextSeq⟩ s.sells
      ⟨⟨s.good, r.book, sells1, r.stats, s.last, s.nextSeq + 1⟩, r.events, false⟩

/-- Modelled from the spec: `Reset`.  Drain both books, reporting each resting
order unfilled once; promote the active statistics to the last-period
snapshot; start a fresh accumulator. -/
def Reset (s : MarketState) : MarketState × List Event :=
  (⟨s.good, [], [], Stats.empty, s.active, s.nextSeq⟩,
   s.buys.map (fun e => Event.unfilled e.order.owner s.good e.order.side e.order.size)
     ++ s.sells.map (fun e => Event.unfilled e.order.owner s.good e.order.side e.order.size))

/-- `High()`: the high of the last trading period. -/
def High (s : MarketState) : Option Nat := s.last.high

/-- `Low()`: the low of the last trading period. -/
def Low (s : MarketState) : Option Nat := s.last.low

/-- `Volume()`: the volume traded in the last trading period. -/
def Volume (s : MarketState) : Nat := s.last.volume

/-- `Bid()`: the best unfilled buy price, if any. -/
def Bid (s : MarketState) : Option Nat := s.buys.head?.map (fun e => e.order.price)

/-- `Ask()`: the best unfilled sell price, if any. -/
def Ask (s : MarketState) : Option Nat := s.sells.head?.map (fun e => e.order.price)

/-- The book an incoming order of the given side matches against. -/
def MarketState.oppBook (s : MarketState) : Side → List BookEntry
  | .Buy => s.sells
  | .Sell => s.buys

/-- The fakeAgent of `market_test.go`: it records the arguments of its latest
`OnFill` and `OnUnfilled` callbacks; Go zero value for `Side` is `Buy`. -/
structure FakeAgent where
  fillPrice : Nat
  fillSize : Nat
  fillSide : Side
  unfilledSize : Nat
  unfilledSide : Side
deriving DecidableEq

/-- fakeAgent.OnFill from `market_test.go`. -/
def FakeAgent.onFill (fa : FakeAgent) (s : Side) (p : Nat) (q : Nat) : FakeAgent :=
  ⟨p, q, s, fa.unfilledSize, fa.unfilledSide⟩

/-- fakeAgent.OnUnfilled from `market_test.go`. -/
def FakeAgent.onUnfilled (fa : FakeAgent) (s : Side) (q : Nat) : FakeAgent :=
  ⟨fa.fillPrice, fa.fillSize, fa.fillSide, q, s⟩

/-- Deliver one callback to the fakeAgent with the given identity, ignoring
callbacks addressed to other agents. -/
def applyEvent (id : Nat) (fa : FakeAgent) : Event → FakeAgent
  | .fill a _ s p q => if a = id then fa.onFill s p q else fa
  | .unfilled a _ s q => if a = id then fa.onUnfilled s q else fa

/-- The fakeAgent with the given identity after a run delivering the given
callbacks in order, starting from the Go zero value. -/
def runAgent (id : Nat) (evs : List Event) : FakeAgent :=
  evs.foldl (applyEvent id) ⟨0, 0, .Buy, 0, .Buy⟩

/-- The canonical scenario of TestMarket: seller 0 posts Sell (10, 100), then
buyers 1, 2, 3 post Buy (12, 10), (10, 200), (8, 1000), then Reset; the
result is the final state paired with every callback delivered, in order. -/
def testMarketRun : MarketState × List Event :=
  let s0 := emptyMarket Good.Labour
  let r1 := Post s0 ⟨10, 100, .Sell, 0⟩
  let r2 := Post r1.state ⟨12, 10, .Buy, 1⟩
  let r3 := Post r2.state ⟨10, 200, .Buy, 2⟩
  let r4 := Post r3.state ⟨8, 1000, .Buy, 3⟩
  let r5 := Reset r4.state
  (r5.1, r1.events ++ r2.events ++ r3.events ++ r4.events ++ r5.2)

/-- The Buy book priority: earlier entries have strictly higher price, or
equal price and an earlier insertion sequence number. -/
def buyRel (a b : BookEntry) : Prop :=
  b.order.price < a.order.price ∨ (a.order.price = b.order.price ∧ a.seq < b.seq)

/-- The Sell book priority: earlier entries have strictly lower price, or
equal price and an earlier insertion sequence number. -/
def sellRel (a b : BookEntry) : Prop :=
  a.order.price < b.order.price ∨ (a.order.price = b.order.price ∧ a.seq < b.seq)

instance (a b : BookEntry) : Decidable (buyRel a b) := by
  unfold buyRel; exact inferInstance

instance (a b : BookEntry) : Decidable (sellRel a b) := by
  unfold sellRel; exact inferInstance

/-- The well-formedness invariant of a market state: the Buy book is ordered
by descending price with FIFO tie-break, the Sell book by ascending price with
FIFO tie-break, and every resting sequence number is below the counter. -/
def Inv (s : MarketState) : Prop :=
  s.buys.Pairwise buyRel ∧ s.sells.Pairwise sellRel ∧
    (∀ e ∈ s.buys, e.seq < s.nextSeq) ∧ (∀ e ∈ s.sells, e.seq < s.nextSeq)

instance (s : MarketState) : Decidable (Inv s) := by
  unfold Inv; exact inferInstance

/-- Split a list into the elements at even positions and those at odd
positions; `matchLoop` emits its two callbacks per trade incoming-first, so
the even positions of its event list are the fills of the incoming owner and
the odd positions the fills of the resting owners. -/
def altSplit : List α → List α × List α
  | [] => ([], [])
  | a :: t => ((altSplit t).2.cons a, (altSplit t).1)

/-- The total resting size of a book. -/
def sumSizes (l : List BookEntry) : Nat := (l.map (fun e => e.order.size)).sum

/-- The total size traded during one call: the sum of the sizes of the fills
delivered to the owner of the incoming order (one per trade). -/
def tradedVol (evs : List Event) : Nat := ((altSplit evs).1.map Event.size).sum

/-- The book an order of the given side rests in. -/
def MarketState.ownBook (s : MarketState) : Side → List BookEntry
  | .Buy => s.buys
  | .Sell => s.sells

/-- Reduction modulo 2^32: Go `Price` and `Size` are `uint32`, so Go
arithmetic on them wraps; this models that wrap on `Nat`. -/
def u32 (n : Nat) : Nat := n % 2 ^ 32

/-- A Firm is an agent responsible for buying labour and producing goods
(from `agents/firm.go`). -/
structure Firm where
  goodProduced : Good
  wage : Nat
  price : Nat
  workersHired : Nat
  targetWorkers : Nat
  salesMade : Nat
  targetSales : Nat
deriving DecidableEq

/-- NewFirm from `agents/firm.go`. -/
def NewFirm (goodProduced : Good) (initialWage initialPrice : Nat) : Firm :=
  ⟨goodProduced, initialWage, initialPrice, 0, 0, 0, 0⟩

/-- The values `Firm.adjustPrices` reads from its `Parameters` argument:
`p.Increment`, `p.Goods[f.goodProduced].Market.High()`,
`p.LabourMarket.High()` and `p.LabourMarket.Low()` (the `Parameters` type
itself lives outside the provided sources; these are the only reads). -/
structure FirmParams where
  increment : Nat
  goodHigh : Nat
  labourHigh : Nat
  labourLow : Nat

/-- Firm.adjustPrices from `agents/firm.go`.  All fields are Go `uint32`, so
the two decrements `f.price -= p.Increment` and `f.wage -= p.Increment` wrap
modulo 2^32: on values below 2^32 they equal `u32 (x + (2^32 - increment))`.
The two increment assignments wrap the same way. -/
def Firm.adjustPrices (f : Firm) (p : FirmParams) : Firm :=
  if f.targetSales = 0 then f
  else
    let f1 :=
      if f.salesMade < f.targetSales then
        { f with price := u32 (f.price + (2 ^ 32 - p.increment)) }
      else if f.price ≤ p.goodHigh then
        { f with price := u32 (p.goodHigh + p.increment) }
      else f
    if f1.workersHired < f1.targetWorkers then
      { f1 with wage := u32 (p.labourHigh + p.increment) }
    else if p.labourLow ≤ f1.wage then
      { f1 with wage := u32 (f1.wage + (2 ^ 32 - p.increment)) }
    else f1

/-- Firm.placeOrders from `agents/firm.go`, as the list of (market, order)
pairs posted: a labour Buy order at the wage of the firm when
`targetWorkers > 0`, and a Sell order for the produced good at its price when
`targetSales > 0`; `id` stands for the posting firm itself (`Owner: f`). -/
def Firm.placeOrders (f : Firm) (id : Nat) : List (Good × Order) :=
  (if 0 < f.targetWorkers then [(Good.Labour, ⟨f.wage, f.targetWorkers, .Buy, id⟩)] else [])
    ++ (if 0 < f.targetSales then [(f.goodProduced, ⟨f.price, f.targetSales, .Sell, id⟩)] else [])

/-- Firm.reset from `agents/firm.go`. -/
def Firm.reset (f : Firm) : Firm :=
  { f with workersHired := 0, salesMade := 0 }

/-- Firm.OnFill from `agents/firm.go`: labour fills add to workersHired,
fills of the produced good add to salesMade (uint32 addition). -/
def Firm.OnFill (f : Firm) (good : Good) (_ : Side) (_ : Nat) (size : Nat) : Firm :=
  if good = Good.Labour then { f with workersHired := u32 (f.workersHired + size) }
  else if good = f.goodProduced then { f with salesMade := u32 (f.salesMade + size) }
  else f

/-- Firm.OnUnfilled from `agents/firm.go`: the body is empty (no need to
actually do anything here). -/
def Firm.OnUnfilled (f : Firm) (_ : Good) (_ : Side) (_ : Nat) : Firm := f

/-- Membership in `insertBuy e l` is membership in `l` or being `e`. -/
theorem mem_insertBuy {e y : BookEntry} {l : List BookEntry} :
    y ∈ insertBuy e l ↔ y = e ∨ y ∈ l := by
  induction l with
  | nil => simp [insertBuy]
  | cons x xs ih =>
    by_cases h : e.order.price ≤ x.order.price
    · simp only [insertBuy, if_pos h, List.mem_cons, ih]
      tauto
    · simp only [insertBuy, if_neg h, List.mem_cons]

/-- Membership in `insertSell e l` is membership in `l` or being `e`. -/
theorem mem_insertSell {e y : BookEntry} {l : List BookEntry} :
    y ∈ insertSell e l ↔ y = e ∨ y ∈ l := by
  induction l with
  | nil => simp [insertSell]
  | cons x xs ih =>
    by_cases h : x.order.price ≤ e.order.price
    · simp only [insertSell, if_pos h, List.mem_cons, ih]
      tauto
    · simp only [insertSell, if_neg h, List.mem_cons]

/-- Inserting an entry whose sequence number is newer than every resting one
preserves the Buy book ordering: descending price, FIFO on ties. -/
theorem insertBuy_pairwise {e : BookEntry} {l : List BookEntry}
    (hl : l.Pairwise buyRel) (hseq : ∀ x ∈ l, x.seq < e.seq) :
    (insertBuy e l).Pairwise buyRel := by
  induction l with
  | nil => simp [insertBuy]
  | cons x xs ih =>
    rcases List.pairwise_cons.mp hl with ⟨hx, hxs⟩
    by_cases h : e.order.price ≤ x.order.price
    · simp only [insertBuy, if_pos h]
      refine List.pairwise_cons.mpr ⟨?_, ih hxs (fun y hy => hseq y (List.mem_cons_of_mem _ hy))⟩
      intro y hy
      rcases mem_insertBuy.mp hy with rfl | hy2
      · rcases lt_or_eq_of_le h with hlt | heq
        · exact Or.inl hlt
        · exact Or.inr ⟨heq.symm, hseq x (List.mem_cons_self _ _)⟩
      · exact hx y hy2
    · simp only [insertBuy, if_neg h]
      push_neg at h
      refine List.pairwise_cons.mpr ⟨?_, hl⟩
      intro y hy
      rcases List.mem_cons.mp hy with rfl | hy2
      · exact Or.inl h
      · refine Or.inl (lt_of_le_of_lt ?_ h)
        rcases hx y hy2 with h2 | ⟨h2, _⟩
        · exact le_of_lt h2
        · exact le_of_eq h2.symm

/-- Inserting an entry whose sequence number is newer than every resting one
preserves the Sell book ordering: ascending price, FIFO on ties. -/
theorem insertSell_pairwise {e : BookEntry} {l : List BookEntry}
    (hl : l.Pairwise sellRel) (hseq : ∀ x ∈ l, x.seq < e.seq) :
    (insertSell e l).Pairwise sellRel := by
  induction l with
  | nil => simp [insertSell]
  | cons x xs ih =>
    rcases List.pairwise_cons.mp hl with ⟨hx, hxs⟩
    by_cases h : x.order.price ≤ e.order.price
    · simp only [insertSell, if_pos h]
      refine List.pairwise_cons.mpr ⟨?_, ih hxs (fun y hy => hseq y (List.mem_cons_of_mem _ hy))⟩
      intro y hy
      rcases mem_insertSell.mp hy with rfl | hy2
      · rcases lt_or_eq_of_le h with hlt | heq
        · exact Or.inl hlt
        · exact Or.inr ⟨heq, hseq x (List.mem_cons_self _ _)⟩
      · exact hx y hy2
    · simp only [insertSell, if_neg h]
      push_neg at h
      refine List.pairwise_cons.mpr ⟨?_, hl⟩
      intro y hy
      rcases List.mem_cons.mp hy with rfl | hy2
      · exact Or.inl h
      · refine Or.inl (lt_of_lt_of_le h ?_)
        rcases hx y hy2 with h2 | ⟨h2, _⟩
        · exact le_of_lt h2
        · exact le_of_eq h2

/-- Every entry of the book left by the matching loop keeps the price,
sequence number, side and owner of an entry of the input book (only the head
entry can shrink in size). -/
theorem matchLoop_book_shape (g : Good) (o : Order) (b : List BookEntry) (st : Stats) :
    ∀ x ∈ (matchLoop g o b st).book, ∃ y ∈ b,
      x.order.price = y.order.price ∧ x.seq = y.seq ∧
      x.order.side = y.order.side ∧ x.order.owner = y.order.owner := by
  induction b generalizing o st with
  | nil => simp [matchLoop]
  | cons r rest ih =>
    intro x hx
    by_cases h0 : o.size = 0
    · simp only [matchLoop, if_pos h0] at hx
      exact ⟨x, hx, rfl, rfl, rfl, rfl⟩
    · by_cases hc : crossable o.side o.price r.order.price = true
      · by_cases hle : r.order.size ≤ o.size
        · simp only [matchLoop, if_neg h0, if_pos hc, if_pos hle] at hx
          rcases ih _ _ x hx with ⟨y, hy, hrest⟩
          exact ⟨y, List.mem_cons_of_mem _ hy, hrest⟩
        · simp only [matchLoop, if_neg h0, if_pos hc, if_neg hle] at hx
          rcases List.mem_cons.mp hx with rfl | hx2
          · exact ⟨r, List.mem_cons_self _ _, rfl, rfl, rfl, rfl⟩
          · exact ⟨x, List.mem_cons_of_mem _ hx2, rfl, rfl, rfl, rfl⟩
      · simp only [matchLoop, if_neg h0, if_neg hc] at hx
        exact ⟨x, hx, rfl, rfl, rfl, rfl⟩

/-- The matching loop preserves any pairwise book relation that does not
look at entry sizes. -/
theorem matchLoop_pairwise (R : BookEntry → BookEntry → Prop)
    (hR : ∀ p q σ w n q2 c, R ⟨⟨p, q, σ, w⟩, n⟩ c → R ⟨⟨p, q2, σ, w⟩, n⟩ c)
    (g : Good) (o : Order) (b : List BookEntry) (st : Stats)
    (h : b.Pairwise R) : ((matchLoop g o b st).book).Pairwise R := by
  induction b generalizing o st with
  | nil => simp [matchLoop]
  | cons r rest ih =>
    rcases List.pairwise_cons.mp h with ⟨hr, hrest⟩
    by_cases h0 : o.size = 0
    · simpa only [matchLoop, if_pos h0] using h
    · by_cases hc : crossable o.side o.price r.order.price = true
      · by_cases hle : r.order.size ≤ o.size
        · simp only [matchLoop, if_neg h0, if_pos hc, if_pos hle]
          exact ih _ _ hrest
        · simp only [matchLoop, if_neg h0, if_pos hc, if_neg hle]
          refine List.pairwise_cons.mpr ⟨?_, hrest⟩
          intro c hc2
          exact hR r.order.price r.order.size r.order.side r.order.owner r.seq _ c (hr c hc2)
      · simpa only [matchLoop, if_neg h0, if_neg hc] using h

/-- `altSplit` on two consecutive elements distributes them to the two
halves. -/
theorem altSplit_cons_cons (a b : α) (l : List α) :
    altSplit (a :: b :: l) = (a :: (altSplit l).1, b :: (altSplit l).2) := by
  simp [altSplit]

/-- The resting-side fills of one matching-loop run are, in order, exactly the
(owner, side, price) triples of an initial segment of the opposite book. -/
theorem matchLoop_odds_initial (g : Good) (o : Order) (b : List BookEntry) (st : Stats) :
    ∃ k, ((altSplit (matchLoop g o b st).events).2).map (fun e => (e.agent, e.side, e.price)) =
      (b.take k).map (fun x => (x.order.owner, x.order.side, x.order.price)) := by
  induction b generalizing o st with
  | nil => exact ⟨0, by simp [matchLoop, altSplit]⟩
  | cons r rest ih =>
    by_cases h0 : o.size = 0
    · exact ⟨0, by simp [matchLoop, if_pos h0, altSplit]⟩
    · by_cases hc : crossable o.side o.price r.order.price = true
      · by_cases hle : r.order.size ≤ o.size
        · rcases ih ⟨o.price, o.size - min o.size r.order.size, o.side, o.owner⟩
            (st.record r.order.price (min o.size r.order.size)) with ⟨k, hk⟩
          refine ⟨k + 1, ?_⟩
          simp only [matchLoop, if_neg h0, if_pos hc, if_pos hle, List.cons_append,
            List.nil_append, altSplit_cons_cons, List.map_cons, List.take_succ_cons]
          rw [hk]
          simp [Event.agent, Event.side, Event.price]
        · refine ⟨1, ?_⟩
          simp [matchLoop, if_neg h0, if_pos hc, if_neg hle, altSplit,
            Event.agent, Event.side, Event.price]
      · exact ⟨0, by simp [matchLoop, if_neg h0, if_neg hc, altSplit]⟩

/-- Every incoming-side fill of one matching-loop run is addressed to the
owner of the incoming order, with the side of the incoming order. -/
theorem matchLoop_evens_own (g : Good) (o : Order) (b : List BookEntry) (st : Stats) :
    ∀ e ∈ (altSplit (matchLoop g o b st).events).1, e.agent = o.owner ∧ e.side = o.side := by
  induction b generalizing o st with
  | nil => simp [matchLoop, altSplit]
  | cons r rest ih =>
    intro e he
    by_cases h0 : o.size = 0
    · simp [matchLoop, if_pos h0, altSplit] at he
    · by_cases hc : crossable o.side o.price r.order.price = true
      · by_cases hle : r.order.size ≤ o.size
        · simp only [matchLoop, if_neg h0, if_pos hc, if_pos hle, List.cons_append,
            List.nil_append, altSplit_cons_cons, List.mem_cons] at he
          rcases he with rfl | he2
          · exact ⟨rfl, rfl⟩
          · exact ih ⟨o.price, o.size - min o.size r.order.size, o.side, o.owner⟩
              (st.record r.order.price (min o.size r.order.size)) e he2
        · simp only [matchLoop, if_neg h0, if_pos hc, if_neg hle] at he
          simp only [altSplit, List.mem_cons] at he
          rcases he with rfl | he2
          · exact ⟨rfl, rfl⟩
          · simp at he2
      · simp [matchLoop, if_neg h0, if_neg hc, altSplit] at he

/-- Every fill price reported by one matching-loop run is the price of some
entry of the opposite book the loop matched against. -/
theorem matchLoop_price_mem (g : Good) (o : Order) (b : List BookEntry) (st : Stats) :
    ∀ e ∈ (matchLoop g o b st).events, e.price ∈ b.map (fun x => x.order.price) := by
  induction b generalizing o st with
  | nil => simp [matchLoop]
  | cons r rest ih =>
    intro e he
    by_cases h0 : o.size = 0
    · simp [matchLoop, if_pos h0] at he
    · by_cases hc : crossable o.side o.price r.order.price = true
      · by_cases hle : r.order.size ≤ o.size
        · simp only [matchLoop, if_neg h0, if_pos hc, if_pos hle, List.cons_append,
            List.nil_append, List.mem_cons] at he
          rcases he with rfl | rfl | he2
          · exact List.mem_cons_self _ _
          · exact List.mem_cons_self _ _
          · exact List.mem_cons_of_mem _ (ih _ _ e he2)
        · simp only [matchLoop, if_neg h0, if_pos hc, if_neg hle, List.mem_cons] at he
          rcases he with rfl | rfl | he2
          · exact List.mem_cons_self _ _
          · exact List.mem_cons_self _ _
          · simp at he2
      · simp [matchLoop, if_neg h0, if_neg hc] at he

/-- The two fills of each trade report the same price: the incoming-side fill
prices equal the resting-side fill prices pointwise. -/
theorem matchLoop_price_pairs (g : Good) (o : Order) (b : List BookEntry) (st : Stats) :
    ((altSplit (matchLoop g o b st).events).1).map Event.price =
      ((altSplit (matchLoop g o b st).events).2).map Event.price := by
  induction b generalizing o st with
  | nil => simp [matchLoop, altSplit]
  | cons r rest ih =>
    by_cases h0 : o.size = 0
    · simp [matchLoop, if_pos h0, altSplit]
    · by_cases hc : crossable o.side o.price r.order.price = true
      · by_cases hle : r.order.size ≤ o.size
        · simp only [matchLoop, if_neg h0, if_pos hc, if_pos hle, List.cons_append,
            List.nil_append, altSplit_cons_cons, List.map_cons]
          rw [ih]
          simp [Event.price]
        · simp [matchLoop, if_neg h0, if_pos hc, if_neg hle, altSplit, Event.price]
      · simp [matchLoop, if_neg h0, if_neg hc, altSplit]

/-- The traded volume of an empty run is zero. -/
theorem tradedVol_nil : tradedVol [] = 0 := rfl

/-- One trade contributes the size of the incoming-side fill to the traded
volume. -/
theorem tradedVol_cons_cons (a b : Event) (l : List Event) :
    tradedVol (a :: b :: l) = a.size + tradedVol l := by
  simp [tradedVol, altSplit_cons_cons]

/-- The resting size of a book with one more entry. -/
theorem sumSizes_cons (x : BookEntry) (l : List BookEntry) :
    sumSizes (x :: l) = x.order.size + sumSizes l := by
  simp [sumSizes]

/-- Recording a trade adds its size to the accumulated volume. -/
theorem record_volume (st : Stats) (p : Nat) (q : Nat) :
    (st.record p q).volume = st.volume + q := rfl

/-- Conservation of size in the matching loop: the remainder of the incoming
order plus the traded volume is its original size, the resting book size plus the
traded volume is the original resting size, and the statistics volume grows by
exactly the traded volume. -/
theorem matchLoop_conservation (g : Good) (o : Order) (b : List BookEntry) (st : Stats) :
    (matchLoop g o b st).rem.size + tradedVol (matchLoop g o b st).events = o.size ∧
    sumSizes (matchLoop g o b st).book + tradedVol (matchLoop g o b st).events = sumSizes b ∧
    (matchLoop g o b st).stats.volume = st.volume + tradedVol (matchLoop g o b st).events := by
  induction b generalizing o st with
  | nil => simp [matchLoop, tradedVol, altSplit]
  | cons r rest ih =>
    by_cases h0 : o.size = 0
    · simp [matchLoop, if_pos h0, tradedVol, altSplit, h0]
    · by_cases hc : crossable o.side o.price r.order.price = true
      · by_cases hle : r.order.size ≤ o.size
        · have hmin : min o.size r.order.size = r.order.size := min_eq_right hle
          simp only [matchLoop, if_neg h0, if_pos hc, if_pos hle, List.cons_append,
            List.nil_append]
          rw [tradedVol_cons_cons, sumSizes_cons]
          dsimp only [Event.size]
          rw [hmin]
          obtain ⟨ih1, ih2, ih3⟩ := ih ⟨o.price, o.size - r.order.size, o.side, o.owner⟩
            (st.record r.order.price r.order.size)
          dsimp only at ih1 ih2 ih3
          rw [record_volume] at ih3
          refine ⟨by omega, by omega, by omega⟩
        · have hlt : o.size < r.order.size := lt_of_not_le hle
          have hmin : min o.size r.order.size = o.size := min_eq_left (le_of_lt hlt)
          simp only [matchLoop, if_neg h0, if_pos hc, if_neg hle]
          rw [tradedVol_cons_cons, sumSizes_cons, sumSizes_cons, record_volume]
          dsimp only [Event.size]
          simp only [tradedVol_nil]
          rw [hmin]
          refine ⟨by omega, by omega, by omega⟩
      · simp [matchLoop, if_neg h0, if_neg hc, tradedVol, altSplit]

/-- The sequence numbers of the book left by the matching loop all occur in
the input book. -/
theorem matchLoop_seq_bound (g : Good) (o : Order) (b : List BookEntry) (st : Stats)
    (N : Nat) (h : ∀ y ∈ b, y.seq < N) :
    ∀ x ∈ (matchLoop g o b st).book, x.seq < N := by
  intro x hx
  rcases matchLoop_book_shape g o b st x hx with ⟨y, hy, _, hseq, _, _⟩
  rw [hseq]
  exact h y hy

/-- C2: price-time priority.  Starting from a well-ordered market, `Post`
keeps both books ordered by price priority with FIFO tie-break (descending
prices in the Buy book, ascending in the Sell book, earlier sequence number
first among equal prices), and the resting orders it fills are exactly an
initial segment of the opposite book taken in that priority order. -/
theorem post_price_time_priority (s : MarketState) (o : Order) (h : Inv s) :
    Inv (Post s o).state ∧
    ∃ k, ((altSplit (Post s o).events).2).map (fun e => (e.agent, e.side, e.price)) =
      ((s.oppBook o.side).take k).map (fun x => (x.order.owner, x.order.side, x.order.price)) := by
  obtain ⟨hb, hsl, hbs, hss⟩ := h
  rcases o with ⟨op, osz, osd, ow⟩
  by_cases h0 : osz = 0
  · subst h0
    refine ⟨⟨hb, hsl, hbs, hss⟩, 0, ?_⟩
    simp [Post, altSplit]
  · cases osd with
    | Buy =>
      refine ⟨⟨?_, ?_, ?_, ?_⟩, ?_⟩
      · simp only [Post, if_neg h0]
        by_cases hr : (matchLoop s.good ⟨op, osz, .Buy, ow⟩ s.sells s.active).rem.size = 0
        · simpa [hr] using hb
        · simp only [if_neg hr]
          exact insertBuy_pairwise hb (fun x hx => hbs x hx)
      · simp only [Post, if_neg h0]
        exact matchLoop_pairwise sellRel (fun p q σ w n q2 c hrel => hrel) s.good
          ⟨op, osz, .Buy, ow⟩ s.sells s.active hsl
      · simp only [Post, if_neg h0]
        by_cases hr : (matchLoop s.good ⟨op, osz, .Buy, ow⟩ s.sells s.active).rem.size = 0
        · simp only [hr, if_pos rfl]
          intro x hx
          exact Nat.lt_succ_of_lt (hbs x hx)
        · simp only [if_neg hr]
          intro x hx
          rcases mem_insertBuy.mp hx with rfl | hx2
          · exact Nat.lt_succ_self _
          · exact Nat.lt_succ_of_lt (hbs x hx2)
      · simp only [Post, if_neg h0]
        exact matchLoop_seq_bound s.good ⟨op, osz, .Buy, ow⟩ s.sells s.active _
          (fun y hy => Nat.lt_succ_of_lt (hss y hy))
      · simp only [Post, if_neg h0, MarketState.oppBook]
        exact matchLoop_odds_initial s.good ⟨op, osz, .Buy, ow⟩ s.sells s.active
    | Sell =>
      refine ⟨⟨?_, ?_, ?_, ?_⟩, ?_⟩
      · simp only [Post, if_neg h0]
        exact matchLoop_pairwise buyRel (fun p q σ w n q2 c hrel => hrel) s.good
          ⟨op, osz, .Sell, ow⟩ s.buys s.active hb
      · simp only [Post, if_neg h0]
        by_cases hr : (matchLoop s.good ⟨op, osz, .Sell, ow⟩ s.buys s.active).rem.size = 0
        · simpa [hr] using hsl
        · simp only [if_neg hr]
          exact insertSell_pairwise hsl (fun x hx => hss x hx)
      · simp only [Post, if_neg h0]
        exact matchLoop_seq_bound s.good ⟨op, osz, .Sell, ow⟩ s.buys s.active _
          (fun y hy => Nat.lt_succ_of_lt (hbs y hy))
      · simp only [Post, if_neg h0]
        by_cases hr : (matchLoop s.good ⟨op, osz, .Sell, ow⟩ s.buys s.active).rem.size = 0
        · simp only [hr, if_pos rfl]
          intro x hx
          exact Nat.lt_succ_of_lt (hss x hx)
        · simp only [if_neg hr]
          intro x hx
          rcases mem_insertSell.mp hx with rfl | hx2
          · exact Nat.lt_succ_self _
          · exact Nat.lt_succ_of_lt (hss x hx2)
      · simp only [Post, if_neg h0, MarketState.oppBook]
        exact matchLoop_odds_initial s.good ⟨op, osz, .Sell, ow⟩ s.buys s.active

/-- C1: the canonical TestMarket scenario — Sell (10,100); Buy (12,10),
(10,200), (8,1000); Reset — leaves buyer 1 fully filled at 10 for 10 with no
unfilled report, buyer 2 last filled at 10 for 90 with 110 unfilled, buyer 3
unfilled for 1000 with no fill, and the seller last filled at 10 for 90 with
no unfilled report. -/
theorem testMarket_canonical_run :
    runAgent 1 testMarketRun.2 = ⟨10, 10, .Buy, 0, .Buy⟩ ∧
    runAgent 2 testMarketRun.2 = ⟨10, 90, .Buy, 110, .Buy⟩ ∧
    runAgent 3 testMarketRun.2 = ⟨0, 0, .Buy, 1000, .Buy⟩ ∧
    runAgent 0 testMarketRun.2 = ⟨10, 90, .Sell, 0, .Buy⟩ := by
  refine ⟨by decide, by decide, by decide, by decide⟩

/-- From the initial-segment property: every resting-side fill is addressed
to the owner of an order of the opposite book, with the side of that order. -/
theorem odds_mem_from_initial {evs : List Event} {b : List BookEntry}
    (h : ∃ k, ((altSplit evs).2).map (fun e => (e.agent, e.side, e.price)) =
      (b.take k).map (fun x => (x.order.owner, x.order.side, x.order.price))) :
    ∀ e ∈ (altSplit evs).2, ∃ r ∈ b, e.agent = r.order.owner ∧ e.side = r.order.side := by
  rcases h with ⟨k, hk⟩
  intro e he
  have hm : (e.agent, e.side, e.price) ∈
      (b.take k).map (fun x => (x.order.owner, x.order.side, x.order.price)) := by
    rw [← hk]
    exact List.mem_map_of_mem _ he
  rcases List.mem_map.mp hm with ⟨r, hr, heq⟩
  simp only [Prod.mk.injEq] at heq
  exact ⟨r, List.take_subset _ _ hr, heq.1.symm, heq.2.1.symm⟩

/-- The last-period snapshot is untouched by `Post`. -/
theorem post_state_last (s : MarketState) (o : Order) : (Post s o).state.last = s.last := by
  rcases o with ⟨op, osz, osd, ow⟩
  by_cases h0 : osz = 0
  · subst h0
    rfl
  · cases osd <;> simp [Post, if_neg h0]

/-- Inserting into the Buy book adds exactly the size of the new entry. -/
theorem sumSizes_insertBuy (e : BookEntry) (l : List BookEntry) :
    sumSizes (insertBuy e l) = e.order.size + sumSizes l := by
  induction l with
  | nil => simp [insertBuy, sumSizes]
  | cons x xs ih =>
    by_cases h : e.order.price ≤ x.order.price
    · simp only [insertBuy, if_pos h, sumSizes_cons, ih]
      omega
    · simp only [insertBuy, if_neg h, sumSizes_cons]

/-- Inserting into the Sell book adds exactly the size of the new entry. -/
theorem sumSizes_insertSell (e : BookEntry) (l : List BookEntry) :
    sumSizes (insertSell e l) = e.order.size + sumSizes l := by
  induction l with
  | nil => simp [insertSell, sumSizes]
  | cons x xs ih =>
    by_cases h : x.order.price ≤ e.order.price
    · simp only [insertSell, if_pos h, sumSizes_cons, ih]
      omega
    · simp only [insertSell, if_neg h, sumSizes_cons]

/-- Witness for C2 at a concrete market: a resting Sell (10, 5), then an
incoming crossing Buy (12, 7). -/
theorem post_price_time_priority_witness :
    Inv (Post (Post (emptyMarket Good.Labour) ⟨10, 5, .Sell, 0⟩).state ⟨12, 7, .Buy, 1⟩).state ∧
    ∃ k, ((altSplit (Post (Post (emptyMarket Good.Labour) ⟨10, 5, .Sell, 0⟩).state
          ⟨12, 7, .Buy, 1⟩).events).2).map (fun e => (e.agent, e.side, e.price)) =
      (((Post (emptyMarket Good.Labour) ⟨10, 5, .Sell, 0⟩).state.oppBook Side.Buy).take k).map
        (fun x => (x.order.owner, x.order.side, x.order.price)) :=
  post_price_time_priority _ _ (by decide)

/-- C3: every fill price reported by `Post` (to either owner, and to the
statistics via the same trade) is the price of an order that was resting in
the opposite book before the call, and the two fills of each trade report the
same price — never the own price of the incoming order unless it coincides. -/
theorem post_trade_price_is_resting (s : MarketState) (o : Order) :
    (∀ e ∈ (Post s o).events, e.price ∈ (s.oppBook o.side).map (fun x => x.order.price)) ∧
    ((altSplit (Post s o).events).1.map Event.price =
      (altSplit (Post s o).events).2.map Event.price) := by
  rcases o with ⟨op, osz, osd, ow⟩
  by_cases h0 : osz = 0
  · subst h0
    constructor
    · intro e he
      simp [Post] at he
    · simp [Post, altSplit]
  · cases osd with
    | Buy =>
      constructor
      · simp only [Post, if_neg h0, MarketState.oppBook]
        exact matchLoop_price_mem s.good ⟨op, osz, .Buy, ow⟩ s.sells s.active
      · simp only [Post, if_neg h0]
        exact matchLoop_price_pairs s.good ⟨op, osz, .Buy, ow⟩ s.sells s.active
    | Sell =>
      constructor
      · simp only [Post, if_neg h0, MarketState.oppBook]
        exact matchLoop_price_mem s.good ⟨op, osz, .Sell, ow⟩ s.buys s.active
      · simp only [Post, if_neg h0]
        exact matchLoop_price_pairs s.good ⟨op, osz, .Sell, ow⟩ s.buys s.active

/-- Witness for C3: a concrete crossing Buy is filled at the resting Sell
price 10, which is a price of the pre-call Sell book. -/
theorem post_trade_price_is_resting_witness :
    (Event.fill 1 Good.Labour Side.Buy 10 3).price ∈
      ((Post (emptyMarket Good.Labour) ⟨10, 5, .Sell, 0⟩).state.oppBook Side.Buy).map
        (fun x => x.order.price) :=
  (post_trade_price_is_resting (Post (emptyMarket Good.Labour) ⟨10, 5, .Sell, 0⟩).state
    ⟨12, 3, .Buy, 1⟩).1 (Event.fill 1 Good.Labour Side.Buy 10 3) (by decide)

/-- C4: `Post` rejects a zero-size order synchronously: the state (both books
and all statistics) is unchanged, no callback is delivered, and the
invalid-input condition is reported to the caller. -/
theorem post_rejects_zero_size (s : MarketState) (op : Nat) (sd : Side) (ow : Nat) :
    (Post s ⟨op, 0, sd, ow⟩).state = s ∧ (Post s ⟨op, 0, sd, ow⟩).events = [] ∧
    (Post s ⟨op, 0, sd, ow⟩).error = true :=
  ⟨rfl, rfl, rfl⟩

/-- C5: every `OnFill` delivered during a `Post` carries the own side of the
receiving owner: the incoming-side fills go to the owner of the incoming
order with the incoming side, and each resting-side fill goes to the owner of
an opposite-book order with the own side of that order. -/
theorem post_fill_reports_own_side (s : MarketState) (o : Order) :
    (∀ e ∈ (altSplit (Post s o).events).1, e.agent = o.owner ∧ e.side = o.side) ∧
    (∀ e ∈ (altSplit (Post s o).events).2,
      ∃ r ∈ s.oppBook o.side, e.agent = r.order.owner ∧ e.side = r.order.side) := by
  rcases o with ⟨op, osz, osd, ow⟩
  by_cases h0 : osz = 0
  · subst h0
    constructor
    · intro e he
      simp [Post, altSplit] at he
    · intro e he
      simp [Post, altSplit] at he
  · cases osd with
    | Buy =>
      constructor
      · simp only [Post, if_neg h0]
        exact matchLoop_evens_own s.good ⟨op, osz, .Buy, ow⟩ s.sells s.active
      · simp only [Post, if_neg h0, MarketState.oppBook]
        exact odds_mem_from_initial
          (matchLoop_odds_initial s.good ⟨op, osz, .Buy, ow⟩ s.sells s.active)
    | Sell =>
      constructor
      · simp only [Post, if_neg h0]
        exact matchLoop_evens_own s.good ⟨op, osz, .Sell, ow⟩ s.buys s.active
      · simp only [Post, if_neg h0, MarketState.oppBook]
        exact odds_mem_from_initial
          (matchLoop_odds_initial s.good ⟨op, osz, .Sell, ow⟩ s.buys s.active)

/-- Witness for C5: the incoming-side fill of a concrete crossing Buy is
addressed to the buyer with side Buy. -/
theorem post_fill_reports_own_side_witness :
    (Event.fill 1 Good.Labour Side.Buy 10 3).agent = 1 ∧
    (Event.fill 1 Good.Labour Side.Buy 10 3).side = Side.Buy :=
  (post_fill_reports_own_side (Post (emptyMarket Good.Labour) ⟨10, 5, .Sell, 0⟩).state
    ⟨12, 3, .Buy, 1⟩).1 (Event.fill 1 Good.Labour Side.Buy 10 3) (by decide)

/-- C6: period isolation of the statistics.  `Post` never changes the values
`High`/`Low`/`Volume` report (they read the snapshot of the last period);
`Reset` promotes exactly the active accumulator — the trades since the
previous `Reset` — to that snapshot and starts a fresh accumulator; and after
a `Reset` of a trade-free period `Volume` is 0 and `High`/`Low` are unset. -/
theorem stats_period_isolation (s : MarketState) (o : Order) :
    High (Post s o).state = High s ∧ Low (Post s o).state = Low s ∧
    Volume (Post s o).state = Volume s ∧
    (Reset s).1.last = s.active ∧ (Reset s).1.active = Stats.empty ∧
    Volume (Reset { s with active := Stats.empty }).1 = 0 ∧
    High (Reset { s with active := Stats.empty }).1 = none ∧
    Low (Reset { s with active := Stats.empty }).1 = none := by
  refine ⟨?_, ?_, ?_, rfl, rfl, rfl, rfl, rfl⟩
  · simp [High, post_state_last]
  · simp [Low, post_state_last]
  · simp [Volume, post_state_last]

/-- C7: conservation of size.  During one `Post`, the traded volume is bounded
by both sides; the opposite book shrinks by exactly the traded volume; the
own book of the incoming order grows by exactly its unfilled remainder (original
size minus traded volume); and the period volume grows by exactly the traded
volume — no size is created or destroyed. -/
theorem post_size_conservation (s : MarketState) (o : Order) :
    tradedVol (Post s o).events ≤ o.size ∧
    tradedVol (Post s o).events ≤ sumSizes (s.oppBook o.side) ∧
    sumSizes ((Post s o).state.oppBook o.side) + tradedVol (Post s o).events =
      sumSizes (s.oppBook o.side) ∧
    sumSizes ((Post s o).state.ownBook o.side) + tradedVol (Post s o).events =
      sumSizes (s.ownBook o.side) + o.size ∧
    (Post s o).state.active.volume = s.active.volume + tradedVol (Post s o).events := by
  rcases o with ⟨op, osz, osd, ow⟩
  by_cases h0 : osz = 0
  · subst h0
    simp [Post, tradedVol, altSplit]
  · cases osd with
    | Buy =>
      obtain ⟨c1, c2, c3⟩ := matchLoop_conservation s.good ⟨op, osz, .Buy, ow⟩ s.sells s.active
      dsimp only at c1 c2 c3
      simp only [Post, if_neg h0, MarketState.oppBook, MarketState.ownBook]
      refine ⟨by omega, by omega, c2, ?_, c3⟩
      by_cases hr : (matchLoop s.good ⟨op, osz, .Buy, ow⟩ s.sells s.active).rem.size = 0
      · rw [if_pos hr]
        omega
      · rw [if_neg hr, sumSizes_insertBuy]
        dsimp only
        omega
    | Sell =>
      obtain ⟨c1, c2, c3⟩ := matchLoop_conservation s.good ⟨op, osz, .Sell, ow⟩ s.buys s.active
      dsimp only at c1 c2 c3
      simp only [Post, if_neg h0, MarketState.oppBook, MarketState.ownBook]
      refine ⟨by omega, by omega, c2, ?_, c3⟩
      by_cases hr : (matchLoop s.good ⟨op, osz, .Sell, ow⟩ s.buys s.active).rem.size = 0
      · rw [if_pos hr]
        omega
      · rw [if_neg hr, sumSizes_insertSell]
        dsimp only
        omega

/-- C8: `Firm.placeOrders` only posts orders with positive size: a labour Buy
order of size `targetWorkers` only when `targetWorkers > 0`, and a Sell order
of size `targetSales` for the produced good only when `targetSales > 0` — so
the firm never violates the `size > 0` precondition of the engine. -/
theorem firm_placeOrders_positive (f : Firm) (id : Nat) :
    ∀ x ∈ f.placeOrders id, 0 < x.2.size ∧
      ((x.1 = Good.Labour ∧ x.2 = ⟨f.wage, f.targetWorkers, .Buy, id⟩ ∧ 0 < f.targetWorkers) ∨
       (x.1 = f.goodProduced ∧ x.2 = ⟨f.price, f.targetSales, .Sell, id⟩ ∧ 0 < f.targetSales)) := by
  intro x hx
  unfold Firm.placeOrders at hx
  rcases List.mem_append.mp hx with h1 | h2
  · by_cases hw : 0 < f.targetWorkers
    · rw [if_pos hw] at h1
      simp only [List.mem_singleton] at h1
      subst h1
      exact ⟨hw, Or.inl ⟨rfl, rfl, hw⟩⟩
    · rw [if_neg hw] at h1
      simp at h1
  · by_cases hs : 0 < f.targetSales
    · rw [if_pos hs] at h2
      simp only [List.mem_singleton] at h2
      subst h2
      exact ⟨hs, Or.inr ⟨rfl, rfl, hs⟩⟩
    · rw [if_neg hs] at h2
      simp at h2

/-- Witness for C8: a firm that wants 3 workers and has no planned sales
posts exactly one labour Buy order of positive size. -/
theorem firm_placeOrders_positive_witness :
    0 < (3 : Nat) ∧
      ((Good.Labour = Good.Labour ∧ (⟨7, 3, Side.Buy, 0⟩ : Order) = ⟨7, 3, .Buy, 0⟩ ∧
          0 < (3 : Nat)) ∨
       (Good.Labour = Good.Food ∧ (⟨7, 3, Side.Buy, 0⟩ : Order) = ⟨9, 0, .Sell, 0⟩ ∧
          0 < (0 : Nat))) :=
  firm_placeOrders_positive ⟨Good.Food, 7, 9, 0, 3, 0, 0⟩ 0 (Good.Labour, ⟨7, 3, .Buy, 0⟩)
    (by decide)

/-- C9: `Firm.OnUnfilled` is a no-op: every field of the firm is unchanged,
whatever good, side and size are reported. -/
theorem firm_onUnfilled_noop (f : Firm) (g : Good) (sd : Side) (q : Nat) :
    (f.OnUnfilled g sd q).goodProduced = f.goodProduced ∧
    (f.OnUnfilled g sd q).wage = f.wage ∧
    (f.OnUnfilled g sd q).price = f.price ∧
    (f.OnUnfilled g sd q).workersHired = f.workersHired ∧
    (f.OnUnfilled g sd q).targetWorkers = f.targetWorkers ∧
    (f.OnUnfilled g sd q).salesMade = f.salesMade ∧
    (f.OnUnfilled g sd q).targetSales = f.targetSales :=
  ⟨rfl, rfl, rfl, rfl, rfl, rfl, rfl⟩

/-- C10: the decrements in `Firm.adjustPrices` are unsigned 32-bit
arithmetic.  When the price (resp. wage) decrement branch is taken while the
current value is below `Increment`, the result wraps modulo 2^32 to the
near-maximal value `old + (2^32 - Increment)` — at least `2^32 - Increment`
and strictly positive — rather than going negative or saturating at zero. -/
theorem firm_adjustPrices_wraps (f : Firm) (p : FirmParams)
    (hts : f.targetSales ≠ 0) (hinc : p.increment < 2 ^ 32) :
    (f.salesMade < f.targetSales → f.price < p.increment →
      (f.adjustPrices p).price = f.price + (2 ^ 32 - p.increment) ∧
      2 ^ 32 - p.increment ≤ (f.adjustPrices p).price ∧ 0 < (f.adjustPrices p).price) ∧
    (f.targetWorkers ≤ f.workersHired → p.labourLow ≤ f.wage → f.wage < p.increment →
      (f.adjustPrices p).wage = f.wage + (2 ^ 32 - p.increment) ∧
      2 ^ 32 - p.increment ≤ (f.adjustPrices p).wage ∧ 0 < (f.adjustPrices p).wage) := by
  constructor
  · intro hsm hpl
    have key : u32 (f.price + (2 ^ 32 - p.increment)) = f.price + (2 ^ 32 - p.increment) :=
      Nat.mod_eq_of_lt (by omega)
    have hprice : (f.adjustPrices p).price = f.price + (2 ^ 32 - p.increment) := by
      unfold Firm.adjustPrices
      rw [if_neg hts, if_pos hsm]
      dsimp only
      split
      · exact key
      · split
        · exact key
        · exact key
    exact ⟨hprice, by omega, by omega⟩
  · intro hwge hlow hwlt
    have hw : ¬ f.workersHired < f.targetWorkers := not_lt.mpr hwge
    have key : u32 (f.wage + (2 ^ 32 - p.increment)) = f.wage + (2 ^ 32 - p.increment) :=
      Nat.mod_eq_of_lt (by omega)
    have hwage : (f.adjustPrices p).wage = f.wage + (2 ^ 32 - p.increment) := by
      unfold Firm.adjustPrices
      rw [if_neg hts]
      by_cases hsm : f.salesMade < f.targetSales
      · rw [if_pos hsm]
        dsimp only
        rw [if_neg hw, if_pos hlow]
        exact key
      · rw [if_neg hsm]
        by_cases hple : f.price ≤ p.goodHigh
        · rw [if_pos hple]
          dsimp only
          rw [if_neg hw, if_pos hlow]
          exact key
        · rw [if_neg hple]
          dsimp only
          rw [if_neg hw, if_pos hlow]
          exact key
    exact ⟨hwage, by omega, by omega⟩

/-- Witness for C10: with Increment 10, a firm at price 5 and wage 3 that
undersold (0 of 4 sales) and overhired (2 hired, 1 wanted, floor wage 0) wraps
both price and wage to near 2^32. -/
theorem firm_adjustPrices_wraps_witness :
    ((⟨Good.Food, 3, 5, 2, 1, 0, 4⟩ : Firm).adjustPrices ⟨10, 0, 0, 0⟩).price =
      5 + (2 ^ 32 - 10) ∧
    ((⟨Good.Food, 3, 5, 2, 1, 0, 4⟩ : Firm).adjustPrices ⟨10, 0, 0, 0⟩).wage =
      3 + (2 ^ 32 - 10) := by
  have h := firm_adjustPrices_wraps ⟨Good.Food, 3, 5, 2, 1, 0, 4⟩ ⟨10, 0, 0, 0⟩
    (by decide) (by norm_num)
  exact ⟨(h.1 (by decide) (by decide)).1, (h.2 (by decide) (by decide) (by decide)).1⟩

end Econerra
